import Mathlib

set_option linter.unusedSectionVars false
set_option linter.unusedVariables false

/-!
Shallow embedding of `src/redshift/IOP/FRI/coset_combining_fri/precomputation.rs`
(bellman, coset-combining FRI precomputations).

The file under verification builds power tables of roots of unity:
four variants (`PrecomputedOmegas`, `PrecomputedInvOmegas`,
`OmegasInvBitreversed`, `CosetOmegasInvBitreversed`) assembled from a
chunked parallel power fill and an in-place bit-reversal swap loop.

Field elements are modelled by an arbitrary `Field F` with decidable
equality; the fallible `PrimeField::inverse` becomes an `Option`-valued
function. The worker, the `Domain` constructor and the `bitreverse` /
`log2_floor` helpers live in parts of the repository that are not in
scope, and are modelled from the spec (their doc comments say so).
Mutable vectors become lists built chunk by chunk, in the exact order
the Rust code writes them; each scope writes disjoint ranges, so the
concurrent execution is modelled by concatenating the chunks in index
order.
-/

namespace BellmanPrecomp

variable {F : Type} [Field F] [DecidableEq F]

/-- Field inverse (`PrimeField::inverse`): fails (`None`) on the
additive identity. -/
def inverse (x : F) : Option F :=
  if x = 0 then none else some x⁻¹

/-- Evaluation domain: size and a root-of-unity generator
(`crate::plonk::domains::Domain`). -/
structure Domain (F : Type) where
  size : Nat
  generator : F

/-- Modelled from the spec: `Domain::new_for_size` (in
`plonk/domains.rs`, outside the source in scope) constructs a domain of
power-of-two size and fails fatally for unsupported sizes; `gen` picks
the primitive root the field exposes for a given size. -/
def Domain.new_for_size (gen : Nat → F) (size : Nat) : Option (Domain F) :=
  if 0 < size ∧ 2 ^ Nat.log2 size = size then some ⟨size, gen size⟩ else none

/-- Modelled from the spec: the parallel-execution context
(`crate::multicore::Worker`, outside the source in scope). `scope`
partitions a range of `n` elements into contiguous chunks of a size it
chooses (always at least 1) and runs one closure per chunk; writes are
disjoint, so the result is the in-order concatenation of the chunks. -/
structure Worker where
  chunkOf : Nat → Nat
  chunkOf_pos : ∀ n, 0 < chunkOf n

/-- The sequential inner loop of one chunk: store `u` into the slot,
then advance `u := u * b` (`*v = u; u.mul_assign(&omega)`). -/
def fill_chunk (b : F) : F → Nat → List F
  | _, 0 => []
  | u, n + 1 => u :: fill_chunk b (u * b) n

/-- The fill over `k` successive chunks of size `C` (`chunks_mut(C)`),
`rem` slots remaining, chunk index `i`; chunk `i` starts from `s i`. -/
def fill_chunks (b : F) (s : Nat → F) (C : Nat) : Nat → Nat → Nat → List F
  | 0, _, _ => []
  | k + 1, i, rem =>
      fill_chunk b (s i) (min C rem) ++ fill_chunks b s C k (i + 1) (rem - C)

/-- The parallel power-table fill (`worker.scope` bodies at lines 27-37,
39-49, 120-130, 171-181): chunk `i` starts from `b^(i*C)` computed by
fast exponentiation, then advances multiplicatively. `(L + C - 1) / C`
is the number of chunks `chunks_mut(C)` yields on `L` slots. -/
def parallel_fill (b : F) (L C : Nat) : List F :=
  fill_chunks b (fun i => b ^ (i * C)) C ((L + C - 1) / C) 0 L

/-- The coset variant of the fill (lines 259-270): the chunk's starting
power is additionally multiplied once by `shift` (`geninv`) before the
sequential advance (`u.mul_assign(&geninv)`). -/
def coset_parallel_fill (b shift : F) (L C : Nat) : List F :=
  fill_chunks b (fun i => b ^ (i * C) * shift) C ((L + C - 1) / C) 0 L

/-- The chunked in-place multiply of the coset scope (lines 54-62):
every slot is multiplied by `g` (`v.mul_assign(&mult_generator)`). -/
def mul_chunks (g : F) (C : Nat) : Nat → List F → List F
  | 0, _ => []
  | k + 1, l => (l.take C).map (fun v => v * g) ++ mul_chunks g C k (l.drop C)

/-- The whole coset scope: `chunks_mut(C)` over the table. -/
def chunked_mul (g : F) (C : Nat) (l : List F) : List F :=
  mul_chunks g C ((l.length + C - 1) / C) l

/-- Modelled from the spec: `bitreverse` from
`plonk/fft/cooley_tukey_ntt` (outside the source in scope) reverses the
low `l` bits of `n`. -/
def bitreverse : Nat → Nat → Nat
  | _, 0 => 0
  | n, l + 1 => n % 2 * 2 ^ l + bitreverse (n / 2) l

/-- Modelled from the spec: `log2_floor` from
`plonk/fft/cooley_tukey_ntt` (outside the source in scope); on the
power-of-two sizes used here it is the exact logarithm. -/
def log2_floor (n : Nat) : Nat := Nat.log2 n

/-- Swap of two slots (`omegas.swap(rk, k)`) on the list model; out-of-range
`List.set` is inert, matching that the loop only ever swaps in-bounds
indices. -/
def list_swap (l : List F) (i j : Nat) : List F :=
  (l.set i (l.getD j 0)).set j (l.getD i 0)

/-- One iteration of the bit-reversal loop (lines 184-189): swap slots
`k` and `bitreverse k log_n` only when `k < bitreverse k log_n`. -/
def bitrev_step (logn : Nat) (l : List F) (k : Nat) : List F :=
  let rk := bitreverse k logn
  if k < rk then list_swap l k rk else l

/-- The full swap loop `for k in 0..omegas.len()`. -/
def bitrev_loop (logn : Nat) (l : List F) : List F :=
  (List.range l.length).foldl (bitrev_step logn) l

/-- The guarded permutation step (lines 183-190): the loop only runs
when the table is longer than 2. -/
def bitreverse_permutation (logn : Nat) (l : List F) : List F :=
  if 2 < l.length then bitrev_loop logn l else l

/-! ## The four precomputation variants -/

structure PrecomputedOmegas (F : Type) where
  omegas : List F
  coset : List F
  omegas_inv : List F
  domain_size : Nat
  deriving DecidableEq

/-- Constructor `PrecomputedOmegas::new_for_domain` (lines 17-70). `mult_generator`
is the field's fixed multiplicative generator constant
`F::multiplicative_generator()`. -/
def PrecomputedOmegas.new_for_domain (mult_generator : F) (d : Domain F)
    (w : Worker) : Option (PrecomputedOmegas F) :=
  let domain_size := d.size
  let precomputation_size := domain_size / 2
  let omega := d.generator
  match inverse omega with
  | none => none
  | some omega_inv =>
    let omegas := parallel_fill omega domain_size (w.chunkOf domain_size)
    let omegas_inv :=
      parallel_fill omega_inv precomputation_size (w.chunkOf precomputation_size)
    let coset := chunked_mul mult_generator (w.chunkOf domain_size) omegas
    some ⟨omegas, coset, omegas_inv, domain_size⟩

/-- Trait method `FriPrecomputations::new_for_domain_size` for `PrecomputedOmegas`
(lines 74-78): build the domain (fatally failing on unsupported sizes)
and delegate; the worker the Rust code makes with `Worker::new()` is an
explicit parameter of the model. -/
def PrecomputedOmegas.new_for_domain_size (mult_generator : F) (gen : Nat → F)
    (w : Worker) (size : Nat) : Option (PrecomputedOmegas F) :=
  (Domain.new_for_size gen size).bind
    (fun d => PrecomputedOmegas.new_for_domain mult_generator d w)

/-- Accessor `FriPrecomputations::omegas_inv_ref` (lines 80-82). -/
def PrecomputedOmegas.omegas_inv_ref (p : PrecomputedOmegas F) : List F :=
  p.omegas_inv

/-- Accessor `FftPrecomputations::element_for_index` (lines 96-98): plain
indexing into `omegas_inv`; an out-of-bounds index panics in Rust,
modelled by `none`. -/
def PrecomputedOmegas.element_for_index (p : PrecomputedOmegas F)
    (index : Nat) : Option F :=
  p.omegas_inv[index]?

structure PrecomputedInvOmegas (F : Type) where
  omegas_inv : List F
  domain_size : Nat
  deriving DecidableEq

/-- Constructor `PrecomputedInvOmegas::new_for_domain` (lines 110-137). -/
def PrecomputedInvOmegas.new_for_domain (d : Domain F) (w : Worker) :
    Option (PrecomputedInvOmegas F) :=
  let domain_size := d.size
  let precomputation_size := domain_size / 2
  match inverse d.generator with
  | none => none
  | some omega_inv =>
    let omegas_inv :=
      parallel_fill omega_inv precomputation_size (w.chunkOf precomputation_size)
    some ⟨omegas_inv, domain_size⟩

/-- Trait method `FriPrecomputations::new_for_domain_size` for `PrecomputedInvOmegas`
(lines 140-144). -/
def PrecomputedInvOmegas.new_for_domain_size (gen : Nat → F) (w : Worker)
    (size : Nat) : Option (PrecomputedInvOmegas F) :=
  (Domain.new_for_size gen size).bind
    (fun d => PrecomputedInvOmegas.new_for_domain d w)

structure OmegasInvBitreversed (F : Type) where
  omegas : List F
  domain_size : Nat
  deriving DecidableEq

/-- The natural-order table `OmegasInvBitreversed::new_for_domain`
builds before the swap loop (lines 164-181): the plain parallel fill
with base `generator⁻¹`, of half the domain size. -/
def OmegasInvBitreversed.natural_table (d : Domain F) (w : Worker) :
    Option (List F) :=
  let precomputation_size := d.size / 2
  match inverse d.generator with
  | none => none
  | some omega =>
    some (parallel_fill omega precomputation_size (w.chunkOf precomputation_size))

/-- Constructor `OmegasInvBitreversed::new_for_domain` (lines 161-196): the natural
table followed by the guarded bit-reversal loop with
`log_n = log2_floor(precomputation_size)`. -/
def OmegasInvBitreversed.new_for_domain (d : Domain F) (w : Worker) :
    Option (OmegasInvBitreversed F) :=
  (OmegasInvBitreversed.natural_table d w).map
    (fun t => ⟨bitreverse_permutation (log2_floor (d.size / 2)) t, d.size⟩)

/-- Trait method `new_for_domain_size` for `OmegasInvBitreversed` (lines 200-204 and
225-229, identical bodies). -/
def OmegasInvBitreversed.new_for_domain_size (gen : Nat → F) (w : Worker)
    (size : Nat) : Option (OmegasInvBitreversed F) :=
  (Domain.new_for_size gen size).bind
    (fun d => OmegasInvBitreversed.new_for_domain d w)

structure CosetOmegasInvBitreversed (F : Type) where
  omegas : List F
  domain_size : Nat
  deriving DecidableEq

/-- The natural-order table `CosetOmegasInvBitreversed::new_for_domain`
builds before the swap loop (lines 251-270): the coset fill with base
`generator⁻¹` and per-chunk shift `geninv`, the inverse of the field's
fixed multiplicative generator. -/
def CosetOmegasInvBitreversed.natural_table (mult_generator : F)
    (d : Domain F) (w : Worker) : Option (List F) :=
  let precomputation_size := d.size / 2
  match inverse d.generator with
  | none => none
  | some omega =>
    match inverse mult_generator with
    | none => none
    | some geninv =>
      some (coset_parallel_fill omega geninv precomputation_size
        (w.chunkOf precomputation_size))

/-- Constructor `CosetOmegasInvBitreversed::new_for_domain` (lines 248-285). -/
def CosetOmegasInvBitreversed.new_for_domain (mult_generator : F)
    (d : Domain F) (w : Worker) : Option (CosetOmegasInvBitreversed F) :=
  (CosetOmegasInvBitreversed.natural_table mult_generator d w).map
    (fun t => ⟨bitreverse_permutation (log2_floor (d.size / 2)) t, d.size⟩)

/-- Trait method `new_for_domain_size` for `CosetOmegasInvBitreversed`
(lines 289-293). -/
def CosetOmegasInvBitreversed.new_for_domain_size (mult_generator : F)
    (gen : Nat → F) (w : Worker) (size : Nat) :
    Option (CosetOmegasInvBitreversed F) :=
  (Domain.new_for_size gen size).bind
    (fun d => CosetOmegasInvBitreversed.new_for_domain mult_generator d w)

/-- A concrete worker whose scopes always choose chunk size `C + 1`,
used to instantiate the model on the spec's concrete scenarios. -/
def worker_of (C : Nat) : Worker :=
  ⟨fun _ => C + 1, fun _ => Nat.succ_pos C⟩

instance : Fact (Nat.Prime 17) := ⟨by norm_num⟩

/-- Concrete `PrecomputedOmegas` value the model builds over `ZMod 17` with
`N = 8`, `g = 2`, `G = 3` (the spec's Scenario A). -/
def sample_precomp : PrecomputedOmegas (ZMod 17) :=
  ⟨[1, 2, 4, 8, 16, 15, 13, 9], [3, 6, 12, 7, 14, 11, 5, 10],
   [1, 9, 13, 15], 8⟩

/-! ## Lemmas about the chunked fills -/

lemma fill_chunk_length (b u : F) (n : Nat) : (fill_chunk b u n).length = n := by
  induction n generalizing u with
  | zero => rfl
  | succ n ih => simp [fill_chunk, ih]

lemma fill_chunk_getElem (b u : F) (n j : Nat) (hj : j < n) :
    (fill_chunk b u n)[j]? = some (u * b ^ j) := by
  induction n generalizing u j with
  | zero => omega
  | succ n ih =>
    cases j with
    | zero => simp [fill_chunk]
    | succ j =>
      rw [fill_chunk]
      simp only [List.getElem?_cons_succ]
      rw [ih (u * b) j (by omega)]
      congr 1
      rw [pow_succ]
      ring

lemma fill_chunks_length (b : F) (s : Nat → F) (C : Nat) (hC : 0 < C) :
    ∀ k i rem, rem ≤ k * C → (fill_chunks b s C k i rem).length = rem := by
  intro k
  induction k with
  | zero =>
    intro i rem h
    have : rem = 0 := by omega
    simp [this, fill_chunks]
  | succ k ih =>
    intro i rem h
    have hmul : (k + 1) * C = k * C + C := by rw [Nat.succ_mul]
    have h' : rem - C ≤ k * C := by omega
    rw [fill_chunks, List.length_append, fill_chunk_length, ih (i + 1) (rem - C) h']
    omega

lemma fill_chunks_getElem (b : F) (s : Nat → F) (C : Nat) (hC : 0 < C) :
    ∀ k i rem j, rem ≤ k * C → j < rem →
      (fill_chunks b s C k i rem)[j]? = some (s (i + j / C) * b ^ (j % C)) := by
  intro k
  induction k with
  | zero => intro i rem j h hj; omega
  | succ k ih =>
    intro i rem j h hj
    rw [fill_chunks, List.getElem?_append, fill_chunk_length]
    by_cases hjm : j < min C rem
    · rw [if_pos hjm, fill_chunk_getElem b (s i) (min C rem) j hjm]
      have hjC : j < C := lt_of_lt_of_le hjm (min_le_left _ _)
      rw [Nat.div_eq_of_lt hjC, Nat.mod_eq_of_lt hjC, Nat.add_zero]
    · rw [if_neg hjm]
      have hmin : min C rem = C := by omega
      rw [hmin]
      have hmul : (k + 1) * C = k * C + C := by rw [Nat.succ_mul]
      have hrem' : rem - C ≤ k * C := by omega
      have hj' : j - C < rem - C := by omega
      rw [ih (i + 1) (rem - C) (j - C) hrem' hj']
      have hj2 : j - C + C = j := by omega
      have hdiv := Nat.add_div_right (j - C) hC
      rw [hj2] at hdiv
      have hmod := Nat.add_mod_right (j - C) C
      rw [hj2] at hmod
      have harg : i + 1 + (j - C) / C = i + ((j - C) / C + 1) := by omega
      rw [hdiv, hmod, harg]

lemma ceil_le (L C : Nat) (hC : 0 < C) : L ≤ (L + C - 1) / C * C := by
  rcases Nat.eq_zero_or_pos L with hL | hL
  · simp [hL]
  · have hsplit : L + C - 1 = L - 1 + C := by omega
    rw [hsplit, Nat.add_div_right _ hC, Nat.succ_mul]
    have h1 := Nat.div_add_mod (L - 1) C
    have h2 : (L - 1) % C < C := Nat.mod_lt _ hC
    rw [Nat.mul_comm ((L - 1) / C) C]
    generalize C * ((L - 1) / C) = Q at h1 ⊢
    omega

lemma parallel_fill_length (b : F) (L C : Nat) (hC : 0 < C) :
    (parallel_fill b L C).length = L :=
  fill_chunks_length b _ C hC _ 0 L (ceil_le L C hC)

lemma div_mul_pow (b : F) (j C : Nat) : b ^ (j / C * C) * b ^ (j % C) = b ^ j := by
  rw [← pow_add]
  congr 1
  rw [Nat.mul_comm]
  exact Nat.div_add_mod j C

lemma parallel_fill_getElem (b : F) (L C : Nat) (hC : 0 < C) (j : Nat) (hj : j < L) :
    (parallel_fill b L C)[j]? = some (b ^ j) := by
  rw [parallel_fill, fill_chunks_getElem b _ C hC _ 0 L j (ceil_le L C hC) hj]
  simp only [Nat.zero_add]
  rw [div_mul_pow]

lemma coset_parallel_fill_length (b shift : F) (L C : Nat) (hC : 0 < C) :
    (coset_parallel_fill b shift L C).length = L :=
  fill_chunks_length b _ C hC _ 0 L (ceil_le L C hC)

lemma coset_parallel_fill_getElem (b shift : F) (L C : Nat) (hC : 0 < C)
    (j : Nat) (hj : j < L) :
    (coset_parallel_fill b shift L C)[j]? = some (shift * b ^ j) := by
  rw [coset_parallel_fill, fill_chunks_getElem b _ C hC _ 0 L j (ceil_le L C hC) hj]
  simp only [Nat.zero_add]
  rw [mul_right_comm, div_mul_pow, mul_comm]

lemma parallel_fill_chunk_irrel (b : F) (L C C' : Nat) (hC : 0 < C) (hC' : 0 < C') :
    parallel_fill b L C = parallel_fill b L C' := by
  apply List.ext_getElem?
  intro n
  by_cases hn : n < L
  · rw [parallel_fill_getElem b L C hC n hn, parallel_fill_getElem b L C' hC' n hn]
  · rw [List.getElem?_eq_none (by rw [parallel_fill_length b L C hC]; omega),
      List.getElem?_eq_none (by rw [parallel_fill_length b L C' hC']; omega)]

lemma coset_parallel_fill_chunk_irrel (b shift : F) (L C C' : Nat)
    (hC : 0 < C) (hC' : 0 < C') :
    coset_parallel_fill b shift L C = coset_parallel_fill b shift L C' := by
  apply List.ext_getElem?
  intro n
  by_cases hn : n < L
  · rw [coset_parallel_fill_getElem b shift L C hC n hn,
      coset_parallel_fill_getElem b shift L C' hC' n hn]
  · rw [List.getElem?_eq_none (by rw [coset_parallel_fill_length b shift L C hC]; omega),
      List.getElem?_eq_none (by rw [coset_parallel_fill_length b shift L C' hC']; omega)]

lemma mul_chunks_eq_map (g : F) (C : Nat) (hC : 0 < C) :
    ∀ k (l : List F), l.length ≤ k * C →
      mul_chunks g C k l = l.map (fun v => v * g) := by
  intro k
  induction k with
  | zero =>
    intro l h
    have : l = [] := List.eq_nil_of_length_eq_zero (by omega)
    simp [this, mul_chunks]
  | succ k ih =>
    intro l h
    have hmul : (k + 1) * C = k * C + C := by rw [Nat.succ_mul]
    have h' : (l.drop C).length ≤ k * C := by rw [List.length_drop]; omega
    rw [mul_chunks, ih (l.drop C) h', ← List.map_append, List.take_append_drop]

lemma chunked_mul_eq_map (g : F) (C : Nat) (hC : 0 < C) (l : List F) :
    chunked_mul g C l = l.map (fun v => v * g) :=
  mul_chunks_eq_map g C hC _ l (ceil_le l.length C hC)

/-! ## Lemmas about `bitreverse` -/

lemma bitreverse_lt (n l : Nat) : bitreverse n l < 2 ^ l := by
  induction l generalizing n with
  | zero => simp [bitreverse]
  | succ l ih =>
    rw [bitreverse]
    have h1 := ih (n / 2)
    have h2 : 2 ^ (l + 1) = 2 * 2 ^ l := by rw [pow_succ]; ring
    rcases Nat.mod_two_eq_zero_or_one n with h | h <;> rw [h] <;> omega

lemma bitreverse_zero (l : Nat) : bitreverse 0 l = 0 := by
  induction l with
  | zero => rfl
  | succ l ih => simp [bitreverse, ih]

lemma bitreverse_high_bit (l c r : Nat) (hc : c < 2) (hr : r < 2 ^ l) :
    bitreverse (c * 2 ^ l + r) (l + 1) = c + 2 * bitreverse r l := by
  induction l generalizing c r with
  | zero =>
    have hr0 : r = 0 := by omega
    subst hr0
    interval_cases c <;> rfl
  | succ l ih =>
    have hX : c * 2 ^ (l + 1) + r = r + 2 * (c * 2 ^ l) := by rw [pow_succ]; ring
    rw [hX, bitreverse]
    have hmod : (r + 2 * (c * 2 ^ l)) % 2 = r % 2 := by
      have := Nat.add_mul_mod_self_right r (c * 2 ^ l) 2
      rw [Nat.mul_comm (c * 2 ^ l) 2] at this
      exact this
    have hdiv : (r + 2 * (c * 2 ^ l)) / 2 = r / 2 + c * 2 ^ l := by
      rw [Nat.add_mul_div_left _ _ (by omega : (0:Nat) < 2)]
    have hr2 : r / 2 < 2 ^ l := by
      rw [Nat.div_lt_iff_lt_mul (by omega : (0:Nat) < 2)]
      rw [pow_succ] at hr
      omega
    rw [hmod, hdiv, Nat.add_comm (r / 2) (c * 2 ^ l), ih c (r / 2) hc hr2]
    rw [bitreverse]
    ring

lemma bitreverse_bitreverse (n l : Nat) (h : n < 2 ^ l) :
    bitreverse (bitreverse n l) l = n := by
  induction l generalizing n with
  | zero =>
    have : n = 0 := by omega
    simp [this, bitreverse]
  | succ l ih =>
    have hc : n % 2 < 2 := Nat.mod_lt _ (by omega)
    have hr : bitreverse (n / 2) l < 2 ^ l := bitreverse_lt _ _
    have hn2 : n / 2 < 2 ^ l := by
      rw [Nat.div_lt_iff_lt_mul (by omega : (0:Nat) < 2)]
      rw [pow_succ] at h
      omega
    have hunfold : bitreverse n (l + 1) = n % 2 * 2 ^ l + bitreverse (n / 2) l := by
      rw [bitreverse]
    rw [hunfold, bitreverse_high_bit l (n % 2) _ hc hr, ih (n / 2) hn2]
    omega

/-! ## Lemmas about the swap loop -/

lemma list_swap_length (l : List F) (i j : Nat) :
    (list_swap l i j).length = l.length := by
  simp [list_swap]

lemma list_swap_getElem (l : List F) (i j x : Nat)
    (hi : i < l.length) (hj : j < l.length) :
    (list_swap l i j)[x]? =
      if x = i then l[j]? else if x = j then l[i]? else l[x]? := by
  have hgi : l.getD i 0 = l[i] := List.getD_eq_getElem l 0 hi
  have hgj : l.getD j 0 = l[j] := List.getD_eq_getElem l 0 hj
  rw [list_swap, hgi, hgj, List.getElem?_set, List.getElem?_set, List.length_set]
  by_cases hjx : j = x
  · rw [if_pos hjx, if_pos hj]
    by_cases hxi : x = i
    · rw [if_pos hxi, ← List.getElem?_eq_getElem hi]
      have hij : i = j := by omega
      rw [hij]
    · rw [if_neg hxi, if_pos (show x = j by omega)]
      exact (List.getElem?_eq_getElem hi).symm
  · rw [if_neg hjx]
    by_cases hix : i = x
    · rw [if_pos hix, if_pos hi, if_pos (show x = i by omega)]
      exact (List.getElem?_eq_getElem hj).symm
    · rw [if_neg hix, if_neg (show ¬x = i by omega), if_neg (show ¬x = j by omega)]

lemma bitrev_step_length (logn : Nat) (l : List F) (k : Nat) :
    (bitrev_step logn l k).length = l.length := by
  rw [bitrev_step]
  by_cases h : k < bitreverse k logn
  · simp only [if_pos h, list_swap_length]
  · simp only [if_neg h]

lemma bitrev_fold_length (logn : Nat) (l : List F) (m : Nat) :
    ((List.range m).foldl (bitrev_step logn) l).length = l.length := by
  induction m with
  | zero => rfl
  | succ m ih =>
    rw [List.range_succ, List.foldl_append, List.foldl_cons, List.foldl_nil,
      bitrev_step_length, ih]

lemma bitrev_fold_getElem (logn : Nat) (l : List F) (hl : l.length = 2 ^ logn) :
    ∀ m, m ≤ 2 ^ logn → ∀ j, j < 2 ^ logn →
      ((List.range m).foldl (bitrev_step logn) l)[j]? =
        if min j (bitreverse j logn) < m then l[bitreverse j logn]? else l[j]? := by
  intro m
  induction m with
  | zero =>
    intro _ j hj
    rw [if_neg (by omega)]
    rfl
  | succ m ih =>
    intro hm j hj
    have hm' : m ≤ 2 ^ logn := by omega
    have hmlt : m < 2 ^ logn := by omega
    have hrm : bitreverse m logn < 2 ^ logn := bitreverse_lt _ _
    have hrevm : bitreverse (bitreverse m logn) logn = m := bitreverse_bitreverse m logn hmlt
    have hrj : bitreverse j logn < 2 ^ logn := bitreverse_lt _ _
    have hrevj : bitreverse (bitreverse j logn) logn = j := bitreverse_bitreverse j logn hj
    have hLm := bitrev_fold_length logn l m
    rw [List.range_succ, List.foldl_append, List.foldl_cons, List.foldl_nil]
    rw [bitrev_step]
    by_cases hswap : m < bitreverse m logn
    · rw [if_pos hswap]
      rw [list_swap_getElem _ _ _ _ (by omega) (by omega)]
      by_cases hjm : j = m
      · have hbj : bitreverse j logn = bitreverse m logn := by rw [hjm]
        rw [if_pos hjm, ih hm' (bitreverse m logn) hrm, hrevm,
          if_neg (by omega), if_pos (by omega), hbj]
      · rw [if_neg hjm]
        by_cases hjrm : j = bitreverse m logn
        · have hbj : bitreverse j logn = m := by rw [hjrm, hrevm]
          rw [if_pos hjrm, ih hm' m hmlt, if_neg (by omega),
            if_pos (by omega), hbj]
        · rw [if_neg hjrm, ih hm' j hj]
          have hne1 : bitreverse j logn ≠ m := by
            intro hh
            apply hjrm
            rw [← hh, hrevj]
          by_cases hcond : min j (bitreverse j logn) < m
          · rw [if_pos hcond, if_pos (by omega)]
          · rw [if_neg hcond, if_neg (by omega)]
    · rw [if_neg hswap]
      rw [ih hm' j hj]
      by_cases hjm : j = m
      · have hbj : bitreverse j logn = bitreverse m logn := by rw [hjm]
        by_cases heq : bitreverse j logn = j
        · rw [if_neg (by omega), if_pos (by omega), heq]
        · rw [if_pos (by omega), if_pos (by omega)]
      · by_cases hbm : bitreverse j logn = m
        · have hjbm : j = bitreverse m logn := by rw [← hbm, hrevj]
          rw [if_pos (by omega), if_pos (by omega)]
        · by_cases hcond : min j (bitreverse j logn) < m
          · rw [if_pos hcond, if_pos (by omega)]
          · rw [if_neg hcond, if_neg (by omega)]

lemma bitreverse_permutation_length (logn : Nat) (l : List F) :
    (bitreverse_permutation logn l).length = l.length := by
  rw [bitreverse_permutation]
  by_cases h : 2 < l.length
  · rw [if_pos h, bitrev_loop, bitrev_fold_length]
  · rw [if_neg h]

lemma bitreverse_permutation_getElem (logn : Nat) (l : List F)
    (hl : l.length = 2 ^ logn) (j : Nat) (hj : j < l.length) :
    (bitreverse_permutation logn l)[j]? = l[bitreverse j logn]? := by
  have hj' : j < 2 ^ logn := by omega
  rw [bitreverse_permutation]
  by_cases h : 2 < l.length
  · rw [if_pos h, bitrev_loop, hl,
      bitrev_fold_getElem logn l hl (2 ^ logn) le_rfl j hj',
      if_pos (by omega)]
  · rw [if_neg h]
    have hle : 2 ^ logn ≤ 2 := by omega
    have hlogn : logn ≤ 1 := by
      by_contra hh
      have : 2 ^ 2 ≤ 2 ^ logn := Nat.pow_le_pow_right (by omega) (by omega)
      omega
    interval_cases logn
    · norm_num at hj'
      rw [hj']
      rfl
    · have hj2 : j < 2 := by norm_num at hj'; omega
      interval_cases j <;> rfl

lemma bitreverse_permutation_involution (logn : Nat) (l : List F)
    (hl : l.length = 2 ^ logn) :
    bitreverse_permutation logn (bitreverse_permutation logn l) = l := by
  have hlen : (bitreverse_permutation logn l).length = 2 ^ logn := by
    rw [bitreverse_permutation_length, hl]
  apply List.ext_getElem?
  intro n
  by_cases hn : n < l.length
  · rw [bitreverse_permutation_getElem logn _ hlen n (by omega),
      bitreverse_permutation_getElem logn l hl (bitreverse n logn)
        (by rw [hl]; exact bitreverse_lt _ _),
      bitreverse_bitreverse n logn (by omega)]
  · rw [List.getElem?_eq_none
        (by rw [bitreverse_permutation_length, bitreverse_permutation_length]; omega),
      List.getElem?_eq_none (by omega)]

/-! ## Characterizations of the variant constructors -/

lemma log2_floor_pow (k : Nat) : log2_floor (2 ^ k) = k := by
  rw [log2_floor, Nat.log2_eq_log_two, Nat.log_pow (by omega)]

lemma Domain.new_for_size_pow (gen : Nat → F) (k : Nat) :
    Domain.new_for_size gen (2 ^ k) = some ⟨2 ^ k, gen (2 ^ k)⟩ := by
  rw [Domain.new_for_size, if_pos]
  exact ⟨Nat.pow_pos (by omega),
    by rw [Nat.log2_eq_log_two, Nat.log_pow (by omega)]⟩

lemma Domain.new_for_size_not_pow (gen : Nat → F) (size : Nat)
    (h : ∀ k, size ≠ 2 ^ k) :
    Domain.new_for_size gen size = none := by
  rw [Domain.new_for_size, if_neg]
  rintro ⟨h1, h2⟩
  exact h (Nat.log2 size) h2.symm

lemma precomputed_omegas_build_some (G : F) (d : Domain F) (w : Worker)
    (hg : d.generator ≠ 0) :
    PrecomputedOmegas.new_for_domain G d w = some
      ⟨parallel_fill d.generator d.size (w.chunkOf d.size),
       chunked_mul G (w.chunkOf d.size)
         (parallel_fill d.generator d.size (w.chunkOf d.size)),
       parallel_fill d.generator⁻¹ (d.size / 2) (w.chunkOf (d.size / 2)),
       d.size⟩ := by
  simp only [PrecomputedOmegas.new_for_domain, inverse, if_neg hg]

lemma precomputed_omegas_build_zero (G : F) (d : Domain F) (w : Worker)
    (hg : d.generator = 0) :
    PrecomputedOmegas.new_for_domain G d w = none := by
  simp only [PrecomputedOmegas.new_for_domain, inverse, if_pos hg]

lemma precomputed_inv_omegas_build_some (d : Domain F) (w : Worker)
    (hg : d.generator ≠ 0) :
    PrecomputedInvOmegas.new_for_domain d w = some
      ⟨parallel_fill d.generator⁻¹ (d.size / 2) (w.chunkOf (d.size / 2)),
       d.size⟩ := by
  simp only [PrecomputedInvOmegas.new_for_domain, inverse, if_neg hg]

lemma precomputed_inv_omegas_build_zero (d : Domain F) (w : Worker)
    (hg : d.generator = 0) :
    PrecomputedInvOmegas.new_for_domain d w = none := by
  simp only [PrecomputedInvOmegas.new_for_domain, inverse, if_pos hg]

lemma omegas_inv_bitrev_natural_some (d : Domain F) (w : Worker)
    (hg : d.generator ≠ 0) :
    OmegasInvBitreversed.natural_table d w = some
      (parallel_fill d.generator⁻¹ (d.size / 2) (w.chunkOf (d.size / 2))) := by
  simp only [OmegasInvBitreversed.natural_table, inverse, if_neg hg]

lemma omegas_inv_bitrev_natural_zero (d : Domain F) (w : Worker)
    (hg : d.generator = 0) :
    OmegasInvBitreversed.natural_table d w = none := by
  simp only [OmegasInvBitreversed.natural_table, inverse, if_pos hg]

lemma Cosetomegas_inv_bitrev_natural_some (G : F) (d : Domain F)
    (w : Worker) (hg : d.generator ≠ 0) (hG : G ≠ 0) :
    CosetOmegasInvBitreversed.natural_table G d w = some
      (coset_parallel_fill d.generator⁻¹ G⁻¹ (d.size / 2)
        (w.chunkOf (d.size / 2))) := by
  simp only [CosetOmegasInvBitreversed.natural_table, inverse, if_neg hg, if_neg hG]

lemma Cosetomegas_inv_bitrev_natural_zero (G : F) (d : Domain F)
    (w : Worker) (hg : d.generator = 0) :
    CosetOmegasInvBitreversed.natural_table G d w = none := by
  simp only [CosetOmegasInvBitreversed.natural_table, inverse, if_pos hg]

lemma coset_bitrev_natural_gen_zero (G : F) (d : Domain F)
    (w : Worker) (hG : G = 0) :
    CosetOmegasInvBitreversed.natural_table G d w = none := by
  by_cases hg : d.generator = 0
  · simp only [CosetOmegasInvBitreversed.natural_table, inverse, if_pos hg]
  · simp only [CosetOmegasInvBitreversed.natural_table, inverse, if_neg hg, if_pos hG]

lemma Domain.new_for_size_cases (gen : Nat → F) (size : Nat) :
    Domain.new_for_size gen size = none ∨
    Domain.new_for_size gen size = some ⟨size, gen size⟩ := by
  rw [Domain.new_for_size]
  by_cases h : 0 < size ∧ 2 ^ Nat.log2 size = size
  · right
    rw [if_pos h]
  · left
    rw [if_neg h]

lemma zmod17_two_inv : (2 : ZMod 17)⁻¹ = 9 :=
  inv_eq_of_mul_eq_one_right (by decide)

lemma zmod17_three_inv : (3 : ZMod 17)⁻¹ = 6 :=
  inv_eq_of_mul_eq_one_right (by decide)

lemma sample_precomp_build :
    PrecomputedOmegas.new_for_domain (3 : ZMod 17) ⟨8, 2⟩ (worker_of 0) =
      some sample_precomp := by
  rw [precomputed_omegas_build_some (3 : ZMod 17) ⟨8, 2⟩ (worker_of 0)
    (by decide)]
  show some ⟨parallel_fill (2 : ZMod 17) 8 ((worker_of 0).chunkOf 8),
      chunked_mul 3 ((worker_of 0).chunkOf 8)
        (parallel_fill (2 : ZMod 17) 8 ((worker_of 0).chunkOf 8)),
      parallel_fill (2 : ZMod 17)⁻¹ 4 ((worker_of 0).chunkOf 4), 8⟩ =
    some sample_precomp
  rw [zmod17_two_inv]
  decide

/-! ## The claims -/

/-- Claim C1: for every base `b`, target length `L` and chunk size `C ≥ 1`
chosen by the worker, the parallel power-table fill produces a table of
length `L` whose entry `i` is `b^i` for every `i` in `[0, L)`; entry 0 is
`1` when the table is nonempty, `L = 0` yields the empty table and `L = 1`
yields `[1]`. Instantiated at a domain generator this is exactly the
forward-table guarantee of `PrecomputedOmegas::new_for_domain`. -/
theorem C1_parallel_fill_powers (b : F) (L C : Nat) (hC : 0 < C) :
    (parallel_fill b L C).length = L ∧
    (∀ i, i < L → (parallel_fill b L C)[i]? = some (b ^ i)) ∧
    (0 < L → (parallel_fill b L C)[0]? = some 1) ∧
    parallel_fill b 0 C = [] ∧
    parallel_fill b 1 C = [1] := by
  refine ⟨parallel_fill_length b L C hC,
    fun i hi => parallel_fill_getElem b L C hC i hi, ?_, ?_, ?_⟩
  · intro hL
    rw [parallel_fill_getElem b L C hC 0 hL, pow_zero]
  · rw [parallel_fill]
    have hk : (0 + C - 1) / C = 0 := Nat.div_eq_of_lt (by omega)
    rw [hk]
    rfl
  · apply List.ext_getElem?
    intro n
    match n with
    | 0 => rw [parallel_fill_getElem b 1 C hC 0 (by omega), pow_zero]; rfl
    | n + 1 =>
      rw [List.getElem?_eq_none (by rw [parallel_fill_length b 1 C hC]; omega),
        List.getElem?_eq_none (by simp)]

/-- Witness for C1: `F = ZMod 17`, `b = 2`, `L = 8`, `C = 3`; entry 5 is
`2^5 = 15` in `ZMod 17`. -/
theorem C1_witness : (parallel_fill (2 : ZMod 17) 8 3)[5]? = some 15 := by
  have h := (C1_parallel_fill_powers (2 : ZMod 17) 8 3 (by omega)).2.1 5 (by omega)
  rw [h]
  decide

/-- Claim C5: in a built `PrecomputedOmegas`, the coset table satisfies
`coset[i] = omegas[i] * G` for every `i` in `[0, N)`, `G` the field's
fixed multiplicative generator. -/
theorem C5_coset_is_shifted_forward (G : F) (d : Domain F) (w : Worker)
    (p : PrecomputedOmegas F)
    (hp : PrecomputedOmegas.new_for_domain G d w = some p) :
    p.coset.length = p.omegas.length ∧
    ∀ i, i < d.size → p.coset[i]? = (p.omegas[i]?).map (fun v => v * G) := by
  by_cases hg : d.generator = 0
  · rw [precomputed_omegas_build_zero G d w hg] at hp
    cases hp
  · rw [precomputed_omegas_build_some G d w hg] at hp
    obtain rfl := Option.some_inj.mp hp
    constructor
    · show (chunked_mul G (w.chunkOf d.size) _).length = _
      rw [chunked_mul_eq_map G _ (w.chunkOf_pos _), List.length_map]
    · intro i hi
      show (chunked_mul G (w.chunkOf d.size) _)[i]? = _
      rw [chunked_mul_eq_map G _ (w.chunkOf_pos _), List.getElem?_map]

/-- Witness for C5: `F = ZMod 17`, `N = 8`, `g = 2`, `G = 3`, chunk 1;
entry 4 of the coset table is `16 * 3 = 14`. -/
theorem C5_witness :
    sample_precomp.coset[4]? =
      Option.map (fun v => v * (3 : ZMod 17)) sample_precomp.omegas[4]? := by
  have h := C5_coset_is_shifted_forward (3 : ZMod 17) ⟨8, 2⟩ (worker_of 0)
    sample_precomp sample_precomp_build
  exact h.2 4 (by decide)

/-- Claim C6: building the same table with two different workers (any
chunk choices, including a sequential single-chunk build) produces
identical results, for all four variants. -/
theorem C6_determinism (G : F) (d : Domain F) (w w' : Worker) :
    PrecomputedOmegas.new_for_domain G d w =
      PrecomputedOmegas.new_for_domain G d w' ∧
    PrecomputedInvOmegas.new_for_domain d w =
      PrecomputedInvOmegas.new_for_domain d w' ∧
    OmegasInvBitreversed.new_for_domain d w =
      OmegasInvBitreversed.new_for_domain d w' ∧
    CosetOmegasInvBitreversed.new_for_domain G d w =
      CosetOmegasInvBitreversed.new_for_domain G d w' := by
  by_cases hg : d.generator = 0
  · rw [precomputed_omegas_build_zero G d w hg,
      precomputed_omegas_build_zero G d w' hg,
      precomputed_inv_omegas_build_zero d w hg,
      precomputed_inv_omegas_build_zero d w' hg,
      OmegasInvBitreversed.new_for_domain, OmegasInvBitreversed.new_for_domain,
      omegas_inv_bitrev_natural_zero d w hg,
      omegas_inv_bitrev_natural_zero d w' hg,
      CosetOmegasInvBitreversed.new_for_domain,
      CosetOmegasInvBitreversed.new_for_domain,
      Cosetomegas_inv_bitrev_natural_zero G d w hg,
      Cosetomegas_inv_bitrev_natural_zero G d w' hg]
    exact ⟨rfl, rfl, rfl, rfl⟩
  · have hfw : parallel_fill d.generator d.size (w.chunkOf d.size) =
        parallel_fill d.generator d.size (w'.chunkOf d.size) :=
      parallel_fill_chunk_irrel _ _ _ _ (w.chunkOf_pos _) (w'.chunkOf_pos _)
    have hinv : parallel_fill d.generator⁻¹ (d.size / 2) (w.chunkOf (d.size / 2)) =
        parallel_fill d.generator⁻¹ (d.size / 2) (w'.chunkOf (d.size / 2)) :=
      parallel_fill_chunk_irrel _ _ _ _ (w.chunkOf_pos _) (w'.chunkOf_pos _)
    have hcoset : chunked_mul G (w.chunkOf d.size)
          (parallel_fill d.generator d.size (w.chunkOf d.size)) =
        chunked_mul G (w'.chunkOf d.size)
          (parallel_fill d.generator d.size (w'.chunkOf d.size)) := by
      rw [chunked_mul_eq_map G _ (w.chunkOf_pos _),
        chunked_mul_eq_map G _ (w'.chunkOf_pos _), hfw]
    refine ⟨?_, ?_, ?_, ?_⟩
    · rw [precomputed_omegas_build_some G d w hg,
        precomputed_omegas_build_some G d w' hg, hcoset, hfw, hinv]
    · rw [precomputed_inv_omegas_build_some d w hg,
        precomputed_inv_omegas_build_some d w' hg, hinv]
    · rw [OmegasInvBitreversed.new_for_domain, OmegasInvBitreversed.new_for_domain,
        omegas_inv_bitrev_natural_some d w hg,
        omegas_inv_bitrev_natural_some d w' hg, hinv]
    · by_cases hG : G = 0
      · rw [CosetOmegasInvBitreversed.new_for_domain,
          CosetOmegasInvBitreversed.new_for_domain,
          coset_bitrev_natural_gen_zero G d w hG,
          coset_bitrev_natural_gen_zero G d w' hG]
      · have hcfill : coset_parallel_fill d.generator⁻¹ G⁻¹ (d.size / 2)
              (w.chunkOf (d.size / 2)) =
            coset_parallel_fill d.generator⁻¹ G⁻¹ (d.size / 2)
              (w'.chunkOf (d.size / 2)) :=
          coset_parallel_fill_chunk_irrel _ _ _ _ _
            (w.chunkOf_pos _) (w'.chunkOf_pos _)
        rw [CosetOmegasInvBitreversed.new_for_domain,
          CosetOmegasInvBitreversed.new_for_domain,
          Cosetomegas_inv_bitrev_natural_some G d w hg hG,
          Cosetomegas_inv_bitrev_natural_some G d w' hg hG, hcfill]

/-- Claim C10: in a built `PrecomputedOmegas`, `domain_size` reports the
full size `N` while `omegas_inv_ref` and `element_for_index` address a
vector of length `N/2`: the lookup succeeds exactly for indices below
`N/2`, and is out of bounds for every index in `[N/2, N)` even though
those are below the reported domain size. -/
theorem C10_index_contract (G : F) (d : Domain F) (w : Worker)
    (p : PrecomputedOmegas F)
    (hp : PrecomputedOmegas.new_for_domain G d w = some p) :
    p.domain_size = d.size ∧
    p.omegas_inv_ref.length = d.size / 2 ∧
    (∀ i, i < d.size / 2 → (p.element_for_index i).isSome = true) ∧
    (∀ i, d.size / 2 ≤ i → p.element_for_index i = none) := by
  by_cases hg : d.generator = 0
  · rw [precomputed_omegas_build_zero G d w hg] at hp
    cases hp
  · rw [precomputed_omegas_build_some G d w hg] at hp
    obtain rfl := Option.some_inj.mp hp
    refine ⟨rfl, parallel_fill_length _ _ _ (w.chunkOf_pos _), ?_, ?_⟩
    · intro i hi
      show (parallel_fill _ _ _)[i]?.isSome = true
      rw [parallel_fill_getElem _ _ _ (w.chunkOf_pos _) i hi]
      rfl
    · intro i hi
      show (parallel_fill _ _ _)[i]? = none
      exact List.getElem?_eq_none
        (by rw [parallel_fill_length _ _ _ (w.chunkOf_pos _)]; omega)

/-- Witness for C10: the concrete `ZMod 17` build with `N = 8`; index 4
is below `domain_size = 8` yet the lookup is out of bounds. -/
theorem C10_witness :
    sample_precomp.element_for_index 4 = none ∧
    sample_precomp.domain_size = 8 := by
  have h := C10_index_contract (3 : ZMod 17) ⟨8, 2⟩ (worker_of 0)
    sample_precomp sample_precomp_build
  exact ⟨h.2.2.2 4 (by decide), h.1⟩

/-- Claim C2: every inverse table (`omegas_inv` of `PrecomputedOmegas`,
`omegas_inv` of `PrecomputedInvOmegas`, and the pre-permutation table of
`OmegasInvBitreversed`) has length `N/2`, with natural-order entry
`i = (g⁻¹)^i` for `i < N/2`; over `ZMod 17` with `N = 8`, `g = 2` the
forward table is `[1,2,4,8,16,15,13,9]` and the inverse table is
`[1,9,13,15]`. -/
theorem C2_inverse_tables (G : F) (d : Domain F) (w : Worker) :
    (∀ p, PrecomputedOmegas.new_for_domain G d w = some p →
       p.omegas_inv.length = d.size / 2 ∧
       ∀ i, i < d.size / 2 → p.omegas_inv[i]? = some (d.generator⁻¹ ^ i)) ∧
    (∀ p, PrecomputedInvOmegas.new_for_domain d w = some p →
       p.omegas_inv.length = d.size / 2 ∧
       ∀ i, i < d.size / 2 → p.omegas_inv[i]? = some (d.generator⁻¹ ^ i)) ∧
    (∀ t, OmegasInvBitreversed.natural_table d w = some t →
       t.length = d.size / 2 ∧
       ∀ i, i < d.size / 2 → t[i]? = some (d.generator⁻¹ ^ i)) ∧
    (PrecomputedOmegas.new_for_domain (3 : ZMod 17) ⟨8, 2⟩ (worker_of 0)).map
        PrecomputedOmegas.omegas = some [1, 2, 4, 8, 16, 15, 13, 9] ∧
    (PrecomputedOmegas.new_for_domain (3 : ZMod 17) ⟨8, 2⟩ (worker_of 0)).map
        PrecomputedOmegas.omegas_inv = some [1, 9, 13, 15] := by
  refine ⟨?_, ?_, ?_, ?_, ?_⟩
  · intro p hp
    by_cases hg : d.generator = 0
    · rw [precomputed_omegas_build_zero G d w hg] at hp
      cases hp
    · rw [precomputed_omegas_build_some G d w hg] at hp
      obtain rfl := Option.some_inj.mp hp
      exact ⟨parallel_fill_length _ _ _ (w.chunkOf_pos _),
        fun i hi => parallel_fill_getElem _ _ _ (w.chunkOf_pos _) i hi⟩
  · intro p hp
    by_cases hg : d.generator = 0
    · rw [precomputed_inv_omegas_build_zero d w hg] at hp
      cases hp
    · rw [precomputed_inv_omegas_build_some d w hg] at hp
      obtain rfl := Option.some_inj.mp hp
      exact ⟨parallel_fill_length _ _ _ (w.chunkOf_pos _),
        fun i hi => parallel_fill_getElem _ _ _ (w.chunkOf_pos _) i hi⟩
  · intro t ht
    by_cases hg : d.generator = 0
    · rw [omegas_inv_bitrev_natural_zero d w hg] at ht
      cases ht
    · rw [omegas_inv_bitrev_natural_some d w hg] at ht
      obtain rfl := Option.some_inj.mp ht
      exact ⟨parallel_fill_length _ _ _ (w.chunkOf_pos _),
        fun i hi => parallel_fill_getElem _ _ _ (w.chunkOf_pos _) i hi⟩
  · rw [sample_precomp_build]
    decide
  · rw [sample_precomp_build]
    decide

/-- Witness for C2 at the concrete `ZMod 17` scenario: entry 3 of the
inverse table of the built `PrecomputedOmegas` is `9^3 = 15`. -/
theorem C2_witness : sample_precomp.omegas_inv[3]? = some 15 := by
  have h := ((C2_inverse_tables (3 : ZMod 17) ⟨8, 2⟩ (worker_of 0)).1
    sample_precomp sample_precomp_build).2 3 (by decide)
  rw [h, zmod17_two_inv]
  decide

/-- Claim C3: in `CosetOmegasInvBitreversed::new_for_domain` each
chunk's starting power is multiplied exactly once by `geninv` before the
sequential fill, so for every chunk size `C ≥ 1` the natural-order entry
`j` of the coset fill is `shift * b^j`; instantiated in the constructor,
the natural-order table has entry `j = G⁻¹ * (g⁻¹)^j` for `j < N/2`, and
the stored table is that sequence after the bit-reversal permutation. -/
theorem C3_coset_chunk_order (b shift : F) (L C : Nat) (hC : 0 < C)
    (G : F) (d : Domain F) (w : Worker) :
    (∀ j, j < L → (coset_parallel_fill b shift L C)[j]? = some (shift * b ^ j)) ∧
    (∀ t, CosetOmegasInvBitreversed.natural_table G d w = some t →
       (∀ j, j < d.size / 2 → t[j]? = some (G⁻¹ * d.generator⁻¹ ^ j)) ∧
       CosetOmegasInvBitreversed.new_for_domain G d w =
         some ⟨bitreverse_permutation (log2_floor (d.size / 2)) t, d.size⟩) := by
  constructor
  · exact fun j hj => coset_parallel_fill_getElem b shift L C hC j hj
  · intro t ht
    constructor
    · by_cases hg : d.generator = 0
      · rw [Cosetomegas_inv_bitrev_natural_zero G d w hg] at ht
        cases ht
      · by_cases hG : G = 0
        · rw [coset_bitrev_natural_gen_zero G d w hG] at ht
          cases ht
        · rw [Cosetomegas_inv_bitrev_natural_some G d w hg hG] at ht
          obtain rfl := Option.some_inj.mp ht
          exact fun j hj =>
            coset_parallel_fill_getElem _ _ _ _ (w.chunkOf_pos _) j hj
    · rw [CosetOmegasInvBitreversed.new_for_domain, ht]
      rfl

/-- Witness for C3: `F = ZMod 17`, base `9`, shift `6`, length 4,
chunk 3; entry 2 is `6 * 9^2 = 10`. -/
theorem C3_witness : (coset_parallel_fill (9 : ZMod 17) 6 4 3)[2]? = some 10 := by
  have h := (C3_coset_chunk_order (9 : ZMod 17) 6 4 3 (by omega) (3 : ZMod 17)
    (⟨8, 2⟩ : Domain (ZMod 17)) (worker_of 0)).1 2 (by omega)
  rw [h]
  decide

/-- Claim C7: the guarded bit-reversal permutation step is an involution:
applied twice to any table of power-of-two length it restores the
original sequence. -/
theorem C7_bitrev_involution (logn : Nat) (l : List F)
    (hl : l.length = 2 ^ logn) :
    bitreverse_permutation logn (bitreverse_permutation logn l) = l :=
  bitreverse_permutation_involution logn l hl

/-- Witness for C7 on the concrete length-4 table `[1,2,3,4]` over
`ZMod 17`. -/
theorem C7_witness :
    bitreverse_permutation 2 (bitreverse_permutation 2
      ([1, 2, 3, 4] : List (ZMod 17))) = [1, 2, 3, 4] :=
  C7_bitrev_involution 2 [1, 2, 3, 4] (by decide)

/-- Claim C8: after one application of the bit-reversal permutation to a
table of power-of-two length, slot `k` holds the value natural order
placed at `bitreverse k log2(M)`; tables of length `≤ 2` are left
unchanged; and `[a,b,c,d]` becomes `[a,c,b,d]`. -/
theorem C8_bitrev_characterization :
    (∀ (logn : Nat) (l : List F), l.length = 2 ^ logn →
       ∀ k, k < l.length →
         (bitreverse_permutation logn l)[k]? = l[bitreverse k logn]?) ∧
    (∀ (logn : Nat) (l : List F), l.length ≤ 2 →
       bitreverse_permutation logn l = l) ∧
    (∀ a b c d : F, bitreverse_permutation 2 [a, b, c, d] = [a, c, b, d]) := by
  refine ⟨?_, ?_, ?_⟩
  · exact fun logn l hl k hk => bitreverse_permutation_getElem logn l hl k hk
  · intro logn l hl
    rw [bitreverse_permutation, if_neg (by omega)]
  · intro a b c d
    with_unfolding_all rfl

/-- Witness for C8 over `ZMod 17`: slot 1 of the permuted `[5,6,7,8]`
holds the entry at natural index `bitreverse 1 2 = 2`. -/
theorem C8_witness :
    (bitreverse_permutation 2 ([5, 6, 7, 8] : List (ZMod 17)))[1]? = some 7 := by
  have h := (C8_bitrev_characterization (F := ZMod 17)).1 2 [5, 6, 7, 8]
    (by decide) 1 (by decide)
  rw [h]
  decide

/-- Claim C9: construction via `new_for_domain_size` fails fatally, returning no table to
the caller, whenever the requested size is unsupported (any
non-power-of-two size) or a required field inverse does not exist (a
zero domain generator, or for the coset variant a zero multiplicative
generator), for each of the four variants. -/
theorem C9_fatal_construction (G : F) (gen : Nat → F) (w : Worker)
    (size : Nat) :
    ((∀ k, size ≠ 2 ^ k) →
       PrecomputedOmegas.new_for_domain_size G gen w size = none ∧
       PrecomputedInvOmegas.new_for_domain_size gen w size = none ∧
       OmegasInvBitreversed.new_for_domain_size gen w size = none ∧
       CosetOmegasInvBitreversed.new_for_domain_size G gen w size = none) ∧
    (gen size = 0 →
       PrecomputedOmegas.new_for_domain_size G gen w size = none ∧
       PrecomputedInvOmegas.new_for_domain_size gen w size = none ∧
       OmegasInvBitreversed.new_for_domain_size gen w size = none ∧
       CosetOmegasInvBitreversed.new_for_domain_size G gen w size = none) ∧
    (G = 0 →
       CosetOmegasInvBitreversed.new_for_domain_size G gen w size = none) := by
  refine ⟨?_, ?_, ?_⟩
  · intro h
    have hd := Domain.new_for_size_not_pow gen size h
    refine ⟨?_, ?_, ?_, ?_⟩
    · rw [PrecomputedOmegas.new_for_domain_size, hd]
      rfl
    · rw [PrecomputedInvOmegas.new_for_domain_size, hd]
      rfl
    · rw [OmegasInvBitreversed.new_for_domain_size, hd]
      rfl
    · rw [CosetOmegasInvBitreversed.new_for_domain_size, hd]
      rfl
  · intro h0
    rcases Domain.new_for_size_cases gen size with hd | hd
    · refine ⟨?_, ?_, ?_, ?_⟩
      · rw [PrecomputedOmegas.new_for_domain_size, hd]
        rfl
      · rw [PrecomputedInvOmegas.new_for_domain_size, hd]
        rfl
      · rw [OmegasInvBitreversed.new_for_domain_size, hd]
        rfl
      · rw [CosetOmegasInvBitreversed.new_for_domain_size, hd]
        rfl
    · refine ⟨?_, ?_, ?_, ?_⟩
      · rw [PrecomputedOmegas.new_for_domain_size, hd]
        exact precomputed_omegas_build_zero G ⟨size, gen size⟩ w h0
      · rw [PrecomputedInvOmegas.new_for_domain_size, hd]
        exact precomputed_inv_omegas_build_zero ⟨size, gen size⟩ w h0
      · rw [OmegasInvBitreversed.new_for_domain_size, hd]
        show OmegasInvBitreversed.new_for_domain ⟨size, gen size⟩ w = none
        rw [OmegasInvBitreversed.new_for_domain,
          omegas_inv_bitrev_natural_zero ⟨size, gen size⟩ w h0]
        rfl
      · rw [CosetOmegasInvBitreversed.new_for_domain_size, hd]
        show CosetOmegasInvBitreversed.new_for_domain G ⟨size, gen size⟩ w = none
        rw [CosetOmegasInvBitreversed.new_for_domain,
          Cosetomegas_inv_bitrev_natural_zero G ⟨size, gen size⟩ w h0]
        rfl
  · intro hG
    rcases Domain.new_for_size_cases gen size with hd | hd
    · rw [CosetOmegasInvBitreversed.new_for_domain_size, hd]
      rfl
    · rw [CosetOmegasInvBitreversed.new_for_domain_size, hd]
      show CosetOmegasInvBitreversed.new_for_domain G ⟨size, gen size⟩ w = none
      rw [CosetOmegasInvBitreversed.new_for_domain,
        coset_bitrev_natural_gen_zero G ⟨size, gen size⟩ w hG]
      rfl

/-- Witness for C9: size 6 is not a power of two, so the `ZMod 17`
construction fails with no table. -/
theorem C9_witness :
    PrecomputedOmegas.new_for_domain_size (3 : ZMod 17) (fun _ => 2)
      (worker_of 0) 6 = none := by
  have hnp : ∀ k, (6 : Nat) ≠ 2 ^ k := by
    intro k
    rcases Nat.lt_or_ge k 3 with h | h
    · interval_cases k <;> decide
    · intro he
      have h8 : 2 ^ 3 ≤ 2 ^ k := Nat.pow_le_pow_right (by omega) h
      omega
  exact ((C9_fatal_construction (3 : ZMod 17) (fun _ => 2) (worker_of 0) 6).1
    hnp).1

/-- Claim C4 as frozen is false on the code: it asserts that both coset
tables have entry 0 equal to the inverse of the coset shift (the field's
fixed multiplicative generator `G`), but the coset copy in
`PrecomputedOmegas` has entry 0 equal to `G` itself: over `ZMod 17` with
`G = 3`, `N = 8`, `g = 2`, entry 0 of the coset copy is `3`, not
`3⁻¹ = 6`. -/
theorem C4_counterexample :
    ¬ ((PrecomputedOmegas.new_for_domain (3 : ZMod 17) ⟨8, 2⟩
          (worker_of 0)).map (fun p => p.coset[0]?) =
        some (some ((3 : ZMod 17)⁻¹))) := by
  rw [sample_precomp_build, zmod17_three_inv]
  decide

/-- Claim C4 (amended): for every built table, entry 0 equals the
multiplicative identity for the non-coset variants (`omegas`,
`omegas_inv` of both variants, and slot 0 of the bit-reversed inverse
table, fixed by the permutation); the coset copy in `PrecomputedOmegas`
has entry 0 equal to `G`, the coset shift itself, while
`CosetOmegasInvBitreversed` has entry 0 equal to `G⁻¹`, the inverse of
the shift. -/
theorem C4_amended_entry_zero (G : F) (d : Domain F) (w : Worker) (k : Nat)
    (hsize : d.size = 2 ^ (k + 1)) :
    (∀ p, PrecomputedOmegas.new_for_domain G d w = some p →
       p.omegas[0]? = some 1 ∧ p.omegas_inv[0]? = some 1 ∧
       p.coset[0]? = some G) ∧
    (∀ p, PrecomputedInvOmegas.new_for_domain d w = some p →
       p.omegas_inv[0]? = some 1) ∧
    (∀ p, OmegasInvBitreversed.new_for_domain d w = some p →
       p.omegas[0]? = some 1) ∧
    (∀ p, CosetOmegasInvBitreversed.new_for_domain G d w = some p →
       p.omegas[0]? = some G⁻¹) := by
  have hpos : 0 < d.size := by
    rw [hsize]
    exact Nat.pow_pos (by omega)
  have hhalf : d.size / 2 = 2 ^ k := by
    rw [hsize, pow_succ, Nat.mul_div_cancel _ (by omega)]
  have hhpos : 0 < d.size / 2 := by
    rw [hhalf]
    exact Nat.pow_pos (by omega)
  refine ⟨?_, ?_, ?_, ?_⟩
  · intro p hp
    by_cases hg : d.generator = 0
    · rw [precomputed_omegas_build_zero G d w hg] at hp
      cases hp
    · rw [precomputed_omegas_build_some G d w hg] at hp
      obtain rfl := Option.some_inj.mp hp
      refine ⟨?_, ?_, ?_⟩
      · rw [parallel_fill_getElem _ _ _ (w.chunkOf_pos _) 0 hpos, pow_zero]
      · rw [parallel_fill_getElem _ _ _ (w.chunkOf_pos _) 0 hhpos, pow_zero]
      · show (chunked_mul G (w.chunkOf d.size) _)[0]? = some G
        rw [chunked_mul_eq_map G _ (w.chunkOf_pos _), List.getElem?_map,
          parallel_fill_getElem _ _ _ (w.chunkOf_pos _) 0 hpos, Option.map_some',
          pow_zero, one_mul]
  · intro p hp
    by_cases hg : d.generator = 0
    · rw [precomputed_inv_omegas_build_zero d w hg] at hp
      cases hp
    · rw [precomputed_inv_omegas_build_some d w hg] at hp
      obtain rfl := Option.some_inj.mp hp
      rw [parallel_fill_getElem _ _ _ (w.chunkOf_pos _) 0 hhpos, pow_zero]
  · intro p hp
    by_cases hg : d.generator = 0
    · rw [OmegasInvBitreversed.new_for_domain,
        omegas_inv_bitrev_natural_zero d w hg] at hp
      cases hp
    · rw [OmegasInvBitreversed.new_for_domain,
        omegas_inv_bitrev_natural_some d w hg] at hp
      rw [Option.map_some'] at hp
      obtain rfl := Option.some_inj.mp hp
      show (bitreverse_permutation (log2_floor (d.size / 2))
        (parallel_fill d.generator⁻¹ (d.size / 2)
          (w.chunkOf (d.size / 2))))[0]? = some 1
      rw [hhalf, log2_floor_pow]
      have hlen : (parallel_fill d.generator⁻¹ (2 ^ k)
          (w.chunkOf (2 ^ k))).length = 2 ^ k :=
        parallel_fill_length _ _ _ (w.chunkOf_pos _)
      rw [bitreverse_permutation_getElem k _ hlen 0 (by omega),
        bitreverse_zero,
        parallel_fill_getElem _ _ _ (w.chunkOf_pos _) 0 (Nat.pow_pos (by omega)),
        pow_zero]
  · intro p hp
    by_cases hg : d.generator = 0
    · rw [CosetOmegasInvBitreversed.new_for_domain,
        Cosetomegas_inv_bitrev_natural_zero G d w hg] at hp
      cases hp
    · by_cases hG : G = 0
      · rw [CosetOmegasInvBitreversed.new_for_domain,
          coset_bitrev_natural_gen_zero G d w hG] at hp
        cases hp
      · rw [CosetOmegasInvBitreversed.new_for_domain,
          Cosetomegas_inv_bitrev_natural_some G d w hg hG] at hp
        rw [Option.map_some'] at hp
        obtain rfl := Option.some_inj.mp hp
        show (bitreverse_permutation (log2_floor (d.size / 2))
          (coset_parallel_fill d.generator⁻¹ G⁻¹ (d.size / 2)
            (w.chunkOf (d.size / 2))))[0]? = some G⁻¹
        rw [hhalf, log2_floor_pow]
        have hlen : (coset_parallel_fill d.generator⁻¹ G⁻¹ (2 ^ k)
            (w.chunkOf (2 ^ k))).length = 2 ^ k :=
          coset_parallel_fill_length _ _ _ _ (w.chunkOf_pos _)
        rw [bitreverse_permutation_getElem k _ hlen 0 (by omega),
          bitreverse_zero,
          coset_parallel_fill_getElem _ _ _ _ (w.chunkOf_pos _) 0
            (Nat.pow_pos (by omega)),
          pow_zero, mul_one]

/-- Witness for the amended C4 at the concrete `ZMod 17` build: entry 0
of the forward table is 1 and entry 0 of the coset copy is the shift `3`
itself. -/
theorem C4_amended_witness :
    sample_precomp.omegas[0]? = some 1 ∧
    sample_precomp.coset[0]? = some 3 := by
  have h := (C4_amended_entry_zero (3 : ZMod 17) ⟨8, 2⟩ (worker_of 0) 2
    (by decide)).1 sample_precomp sample_precomp_build
  exact ⟨h.1, h.2.2⟩

end BellmanPrecomp
